import Mathlib

/-!
Verification of the Process→Analyze pipeline (problem3: processor/process.py
and analyzer/analyze.py).  HTML content is modelled as `List Char`; the Python
regex operations of the source are embedded as executable character-level
scanners; Python float arithmetic is modelled by exact rationals; the shared
filesystem is modelled as an explicit record.  Scanners that skip ahead take a
fuel argument for termination; the wrappers pass the input length, which is
always sufficient, and fuel-independence is proved below.
-/

/-- ASCII model of the regex class `\s` (whitespace). -/
def isSpaceChar (c : Char) : Bool :=
  c = ' ' || c = '\t' || c = '\n' || c = '\r' || c = Char.ofNat 11 || c = Char.ofNat 12

/-- ASCII model of the regex class `\w` (word character). -/
def isWordChar (c : Char) : Bool := c.isAlpha || c.isDigit || c = '_'

/-- ASCII model of the Python `str.lower` function, character-wise. -/
def pyLower (c : Char) : Char :=
  match c with
  | 'A' => 'a' | 'B' => 'b' | 'C' => 'c' | 'D' => 'd' | 'E' => 'e' | 'F' => 'f'
  | 'G' => 'g' | 'H' => 'h' | 'I' => 'i' | 'J' => 'j' | 'K' => 'k' | 'L' => 'l'
  | 'M' => 'm' | 'N' => 'n' | 'O' => 'o' | 'P' => 'p' | 'Q' => 'q' | 'R' => 'r'
  | 'S' => 's' | 'T' => 't' | 'U' => 'u' | 'V' => 'v' | 'W' => 'w' | 'X' => 'x'
  | 'Y' => 'y' | 'Z' => 'z'
  | other => other

/-- The single-quote character, written via its code point. -/
def squoteChar : Char := Char.ofNat 39

/-- A quote (double or single) accepted by the optional-quote part of the
attribute regexes. -/
def isQuoteChar (c : Char) : Bool := c = '"' || c = squoteChar

/-- Characters the attribute-value capture class accepts: everything except a
double quote, a single quote, a space and `>`. -/
def isAttrValChar (c : Char) : Bool := !(c = '"' || c = squoteChar || c = ' ' || c = '>')

/-- Sentence-ending punctuation, the class `[.!?]`. -/
def isSentencePunct (c : Char) : Bool := c = '.' || c = '!' || c = '?'

/-- Python `str.strip()` (ASCII whitespace model). -/
def pyStrip (s : List Char) : List Char :=
  ((s.dropWhile isSpaceChar).reverse.dropWhile isSpaceChar).reverse

/-- Whitespace collapsing: each maximal whitespace run becomes one space.
The Boolean state records whether the previous character was whitespace. -/
def collapseWsAux (prevSpace : Bool) : List Char → List Char
  | [] => []
  | c :: cs =>
    if isSpaceChar c then
      if prevSpace then collapseWsAux true cs else ' ' :: collapseWsAux true cs
    else c :: collapseWsAux false cs

/-- Whitespace collapsing from the initial state. -/
def collapseWs (s : List Char) : List Char := collapseWsAux false s

/-- Tag stripping, `re.sub` of the pattern `<[^>]+>` by a space.  State `none`
means outside a tag; `some buf` means a `<` was read and `buf` holds (reversed)
the characters read since, none of them `>`.  An unterminated `<…` suffix is
emitted verbatim, since the regex has no further match there. -/
def stripTagsAux : Option (List Char) → List Char → List Char
  | none, [] => []
  | some buf, [] => '<' :: buf.reverse
  | none, c :: cs => if c = '<' then stripTagsAux (some []) cs else c :: stripTagsAux none cs
  | some buf, c :: cs =>
    if c = '>' then
      if buf = [] then '<' :: '>' :: stripTagsAux none cs
      else ' ' :: stripTagsAux none cs
    else stripTagsAux (some (c :: buf)) cs

/-- Tag stripping from the initial state. -/
def stripTags (s : List Char) : List Char := stripTagsAux none s

/-- Drop everything up to and including the first occurrence of `pat`; `none`
if `pat` does not occur.  Models the minimal `.*?pat` step of the block
regexes (with DOTALL, so every character is admissible). -/
def dropThroughFirst (pat : List Char) : List Char → Option (List Char)
  | [] => if pat = [] then some [] else none
  | c :: cs =>
    if (c :: cs).take pat.length = pat then some ((c :: cs).drop pat.length)
    else dropThroughFirst pat cs

/-- After a literal opening tag has been read, consume `[^>]*>` and then the
minimal `.*?closeT`; return the suffix after the block, or `none` if the
block is not completed. -/
def skipToClose (closeT after : List Char) : Option (List Char) :=
  match after.dropWhile (fun x => !(x = '>')) with
  | [] => none
  | _ :: rest => dropThroughFirst closeT rest

/-- Fuelled scanner for `re.sub` deleting every match of the DOTALL pattern
`<script[^>]*>.*?</script>`
and its `<style>` analogue: at each position, if `openT` matches literally
(case-sensitively — the source passes no IGNORECASE flag here) and a complete
block follows, the block is dropped and scanning resumes after it; otherwise
the character is kept.  When an opening tag is never completed, no later
occurrence can be completed either, so emitting the character and rescanning
from the next position agrees with `re.sub`. -/
def removeBlocksF (openT closeT : List Char) : ℕ → List Char → List Char
  | _, [] => []
  | 0, s => s
  | fuel + 1, c :: cs =>
    if (c :: cs).take openT.length = openT then
      match skipToClose closeT ((c :: cs).drop openT.length) with
      | some suffix => removeBlocksF openT closeT fuel suffix
      | none => c :: removeBlocksF openT closeT fuel cs
    else c :: removeBlocksF openT closeT fuel cs

/-- Block removal with sufficient fuel. -/
def removeBlocks (openT closeT s : List Char) : List Char :=
  removeBlocksF openT closeT s.length s

/-- Fuelled scanner for the IGNORECASE `re.findall` of a pattern built from a
lowercase literal key (`href=` or `src=`), an optional quote and the
attribute-value capture class: at each position the key is compared
case-insensitively; an optional quote is consumed; the captured value is the
maximal nonempty run of capture-class characters; scanning resumes
after the captured run.  When the run after an (optional) quote is empty the
whole pattern fails at this position — the quote itself is excluded from the
capture class, so backtracking cannot help — and scanning moves on by one. -/
def findAttrF (key : List Char) : ℕ → List Char → List (List Char)
  | _, [] => []
  | 0, _ => []
  | fuel + 1, c :: cs =>
    if ((c :: cs).take key.length).map pyLower = key then
      match (c :: cs).drop key.length with
      | [] => findAttrF key fuel cs
      | r :: rs =>
        if isQuoteChar r then
          if rs.takeWhile isAttrValChar = [] then findAttrF key fuel cs
          else rs.takeWhile isAttrValChar :: findAttrF key fuel (rs.dropWhile isAttrValChar)
        else
          if (r :: rs).takeWhile isAttrValChar = [] then findAttrF key fuel cs
          else (r :: rs).takeWhile isAttrValChar ::
            findAttrF key fuel ((r :: rs).dropWhile isAttrValChar)
    else findAttrF key fuel cs

/-- Attribute extraction with sufficient fuel. -/
def findAttr (key s : List Char) : List (List Char) := findAttrF key s.length s

/-- Split at every character satisfying `p`, keeping empty segments, as
`re.split` with a single-character class does.  The source splits on the
pattern `[.!?]+`, which
merges adjacent delimiters, which only changes empty segments; both call
sites of the source discard empty (stripped) segments afterwards, so the two
coincide there. -/
def splitDelims (p : Char → Bool) (cur : List Char) : List Char → List (List Char)
  | [] => [cur.reverse]
  | c :: cs => if p c then cur.reverse :: splitDelims p [] cs else splitDelims p (c :: cur) cs

/-- The stripped, nonempty segments of the `[.!?]+` split of the text, as in
`analyze_text` (process.py line 36) and `calculate_readability_metrics`
(analyze.py line 23). -/
def splitSentences (text : List Char) : List (List Char) :=
  ((splitDelims isSentencePunct [] text).map pyStrip).filter (fun s => ¬ s = [])

/-- Maximal runs of `\w` characters of `s`, i.e. the matches of `\b\w+\b`. -/
def wordRunsAux (acc : List Char) : List Char → List (List Char)
  | [] => if acc = [] then [] else [acc.reverse]
  | c :: cs =>
    if isWordChar c then wordRunsAux (c :: acc) cs
    else if acc = [] then wordRunsAux [] cs
    else acc.reverse :: wordRunsAux [] cs

/-- The matches of `\b\w+\b` in `s`. -/
def wordRuns (s : List Char) : List (List Char) := wordRunsAux [] s

/-- The matches of `\b[a-zA-Z]+\b` in `s`: maximal `\w`-runs made only of ASCII
letters (a letter run flanked by a digit or underscore fails the `\b` tests,
so exactly the all-letter maximal word runs match). -/
def alphaWords (s : List Char) : List (List Char) :=
  (wordRuns s).filter (fun r => r.all Char.isAlpha)

/-- Index of the last newline of `w`, if any. -/
def lastNewlineIdx : List Char → Option ℕ
  | [] => none
  | c :: cs =>
    match lastNewlineIdx cs with
    | some p => some (p + 1)
    | none => if c = '\n' then some 0 else none

/-- Fuelled scanner for the paragraph `re.split` on the alternation of a
blank-line pattern (newline, greedy whitespace backtracking to a final
newline) and a run of three or more whitespace characters; at each position
the first alternative is tried before the second. -/
def paraSplitF : ℕ → List Char → List Char → List (List Char)
  | _, cur, [] => [cur.reverse]
  | 0, cur, s => [cur.reverse ++ s]
  | fuel + 1, cur, c :: cs =>
    if c = '\n' then
      match lastNewlineIdx (cs.takeWhile isSpaceChar) with
      | some p => cur.reverse :: paraSplitF fuel [] (cs.drop (p + 1))
      | none =>
        if 2 ≤ (cs.takeWhile isSpaceChar).length then
          cur.reverse :: paraSplitF fuel [] (cs.drop (cs.takeWhile isSpaceChar).length)
        else paraSplitF fuel (c :: cur) cs
    else if isSpaceChar c then
      if 2 ≤ (cs.takeWhile isSpaceChar).length then
        cur.reverse :: paraSplitF fuel [] (cs.drop (cs.takeWhile isSpaceChar).length)
      else paraSplitF fuel (c :: cur) cs
    else paraSplitF fuel (c :: cur) cs

/-- The stripped, nonempty segments of the paragraph split
(process.py lines 40–41). -/
def splitParagraphs (text : List Char) : List (List Char) :=
  ((paraSplitF text.length [] text).map pyStrip).filter (fun s => ¬ s = [])

/-- The per-document statistics dictionary built by `analyze_text`. -/
structure Stats where
  word_count : ℕ
  sentence_count : ℕ
  paragraph_count : ℕ
  avg_word_length : ℚ
deriving DecidableEq

/-- `analyze_text` (process.py lines 24–52), float arithmetic as exact
rationals. -/
def analyze_text (text : List Char) : Stats :=
  if text = [] then ⟨0, 0, 0, 0⟩
  else
    let words := alphaWords text
    let avg : ℚ :=
      if words = [] then 0 else ((words.map List.length).sum : ℚ) / (words.length : ℚ)
    ⟨words.length, (splitSentences text).length, (splitParagraphs text).length, avg⟩

/-- `strip_html` (process.py lines 9–21): drop `<script>`/`<style>` blocks,
collect `href=`/`src=` values from the result, then strip remaining tags and
normalise whitespace.  Returns `(text, links, images)`. -/
def strip_html (html : List Char) : List Char × List (List Char) × List (List Char) :=
  let s1 := removeBlocks "<script".data "</script>".data html
  let s2 := removeBlocks "<style".data "</style>".data s1
  (pyStrip (collapseWs (stripTags s2)), findAttr "href=".data s2, findAttr "src=".data s2)

/-- The per-document JSON record written by `process_html_files`
(process.py lines 90–98).  The wall-clock `processed_at` field is not
modelled. -/
structure PDoc where
  source_file : String
  text : List Char
  words : List (List Char)
  statistics : Stats
  links : List (List Char)
  images : List (List Char)
deriving DecidableEq

/-- The body of the per-file loop of `process_html_files`
(process.py lines 84–98). -/
def processDocument (name : String) (html : List Char) : PDoc :=
  let r := strip_html html
  ⟨name, r.1, alphaWords (r.1.map pyLower), analyze_text r.1, r.2.1, r.2.2⟩

/-- Output filename of the `n`-th success, `f"page_{...}.json"` with the
counter interpolated in decimal. -/
def pageName (n : ℕ) : String := "page_" ++ Nat.repr n ++ ".json"

/-- The loop of `process_html_files` (process.py lines 76–111) over the listed
HTML files.  A file whose content is `none` models one whose processing raises
(malformed encoding, I/O failure): the `except` clause skips it and the
success counter is not incremented.  Returns the written files in order and
the final counter. -/
def process_files_loop (count : ℕ) : List (String × Option (List Char)) → List (String × PDoc) × ℕ
  | [] => ([], count)
  | (_, none) :: rest => process_files_loop count rest
  | (name, some html) :: rest =>
    let r := process_files_loop (count + 1) rest
    ((pageName (count + 1), processDocument name html) :: r.1, r.2)

/-- The successfully readable files with their contents, in input order. -/
def successfulFiles (files : List (String × Option (List Char))) : List (String × List Char) :=
  files.filterMap (fun f => f.2.map (fun h => (f.1, h)))

/-- Payload of `process_complete.json` (process.py lines 118–122); the
timestamp string stands for the formatted UTC time. -/
structure StatusPayload where
  status : String
  processed_files : ℕ
  completed_at : String
deriving DecidableEq

/-- The shared filesystem as the processor sees it: existing directories, raw
HTML files (`none` = unreadable), processed records, status markers. -/
structure FileSys where
  dirs : List String
  rawFiles : List (String × Option (List Char))
  processedFiles : List (String × PDoc)
  statusFiles : List (String × StatusPayload)

/-- `os.makedirs(d, exist_ok=True)`. -/
def insertDir (d : String) (dirs : List String) : List String :=
  if d ∈ dirs then dirs else d :: dirs

/-- The file currently stored at `path`. -/
def lookupFile {β : Type} (path : String) : List (String × β) → Option β
  | [] => none
  | (p, v) :: rest => if p = path then some v else lookupFile path rest

/-- Opening a file in write mode followed by a write: any previous file at
`path` is replaced. -/
def overwriteFile {β : Type} (path : String) (v : β) (files : List (String × β)) :
    List (String × β) :=
  (path, v) :: files.filter (fun q => ¬ q.1 = path)

/-- The `.html` suffix test applied by the listing filter. -/
def endsWithHtml (s : String) : Bool :=
  decide (s.data.reverse.take 5 = ".html".data.reverse)

/-- `process_html_files` (process.py lines 62–111) on the filesystem model;
`os.listdir` order is modelled as the stored order of `rawFiles`. -/
def process_html_files (fs : FileSys) : FileSys × ℕ :=
  let fs1 : FileSys := { fs with dirs := insertDir "/shared/processed" fs.dirs }
  if "/shared/raw" ∈ fs1.dirs then
    let htmlFiles := fs1.rawFiles.filter (fun f => endsWithHtml f.1)
    if htmlFiles = [] then (fs1, 0)
    else
      let r := process_files_loop 0 htmlFiles
      ({ fs1 with processedFiles := fs1.processedFiles ++ r.1 }, r.2)
  else (fs1, 0)

/-- `create_process_complete_status` (process.py lines 114–126); `now` stands
for the formatted UTC timestamp taken at the call. -/
def create_process_complete_status (fs : FileSys) (processed_count : ℕ) (now : String) :
    FileSys :=
  let fs1 : FileSys := { fs with dirs := insertDir "/shared/status" fs.dirs }
  { fs1 with
    statusFiles :=
      overwriteFile "/shared/status/process_complete.json"
        ⟨"complete", processed_count, now⟩ fs1.statusFiles }

/-- `jaccard_similarity` (analyze.py lines 10–15) over exact rationals. -/
def jaccard_similarity (doc1_words doc2_words : List String) : ℚ :=
  let set1 := doc1_words.toFinset
  let set2 := doc2_words.toFinset
  if set1 ∪ set2 = ∅ then 0
  else ((set1 ∩ set2).card : ℚ) / ((set1 ∪ set2).card : ℚ)

/-- Round to the nearest integer, ties to even — the ideal behaviour of
the Python `round` builtin (whose float version applies this to the binary value;
rationals model the intended decimal behaviour). -/
def roundHalfEven (x : ℚ) : ℤ :=
  if x - (⌊x⌋ : ℚ) < 1 / 2 then ⌊x⌋
  else if 1 / 2 < x - (⌊x⌋ : ℚ) then ⌊x⌋ + 1
  else if ⌊x⌋ % 2 = 0 then ⌊x⌋ else ⌊x⌋ + 1

/-- Python `round(x, k)`. -/
def pyRound (k : ℕ) (x : ℚ) : ℚ := (roundHalfEven (x * 10 ^ k) : ℚ) / 10 ^ k

/-- One entry of the `document_similarity` list (analyze.py lines 108–112). -/
structure SimEntry where
  doc1 : String
  doc2 : String
  similarity : ℚ
deriving DecidableEq

/-- The entry built for a pair of documents `(name, words)`. -/
def simEntryOf (p q : String × List String) : SimEntry :=
  ⟨p.1, q.1, pyRound 3 (jaccard_similarity p.2 q.2)⟩

/-- The nested `enumerate` loops of `compute_global_statistics`
(analyze.py lines 101–112): one entry per index pair `i < j`, in loop order.
The documents dict is modelled as an insertion-ordered association list. -/
def document_similarity (docs : List (String × List String)) : List SimEntry :=
  docs.enum.flatMap (fun p =>
    docs.enum.filterMap (fun q =>
      if p.1 < q.1 then some (simEntryOf p.2 q.2) else none))

/-- The metrics dictionary of `calculate_readability_metrics`. -/
structure ReadMetrics where
  avg_sentence_length : ℚ
  avg_word_length : ℚ
  complexity_score : ℚ
deriving DecidableEq

/-- The `\b\w+\b` tokens of `text.lower()` (analyze.py line 26). -/
def readabilityWords (text : List Char) : List (List Char) := wordRuns (text.map pyLower)

/-- `calculate_readability_metrics` (analyze.py lines 22–44) over exact
rationals. -/
def calculate_readability_metrics (text : List Char) : ReadMetrics :=
  let sentences := splitSentences text
  let words := readabilityWords text
  if sentences = [] ∨ words = [] then ⟨0, 0, 0⟩
  else
    let asl : ℚ := (words.length : ℚ) / (sentences.length : ℚ)
    let awl : ℚ := ((words.map List.length).sum : ℚ) / (words.length : ℚ)
    ⟨pyRound 2 asl, pyRound 2 awl, pyRound 2 (asl * 0.1 + awl * 0.5)⟩

/-- Concatenation of alternating separator text and quoted `key` attributes,
`sep₁ ++ key ++ '"'v₁'"' ++ … ++ tail`, used to state which extractions the
attribute scanner performs. -/
def buildSegs (key : List Char) : List (List Char × List Char) → List Char → List Char
  | [], tailPart => tailPart
  | (sep, v) :: rest, tailPart => sep ++ key ++ '"' :: (v ++ '"' :: buildSegs key rest tailPart)

/-- Separator text in which no case-insensitive match of a key starting with
`k0` can begin, and which contains no tag opener. -/
def cleanSep (k0 : Char) (sep : List Char) : Prop := ∀ c ∈ sep, pyLower c ≠ k0 ∧ c ≠ '<'

/-- A nonempty attribute value built from characters the capture class
accepts, with no tag opener. -/
def cleanVal (v : List Char) : Prop := v ≠ [] ∧ ∀ c ∈ v, isAttrValChar c = true ∧ c ≠ '<'

/-- The end-to-end sample input of §8 of the specification. -/
def sampleHtml : List Char :=
  "<html><body><p>Hello world. Hello again!</p><a href=".data ++
    squoteChar :: "http://x".data ++ squoteChar :: ">x</a></body></html>".data

/-! ### Basic list helpers -/

theorem length_dropWhile_le {α : Type} (p : α → Bool) :
    ∀ l : List α, (l.dropWhile p).length ≤ l.length := by
  intro l
  induction l with
  | nil => simp [List.dropWhile]
  | cons c cs ih =>
    by_cases h : p c
    · simp [List.dropWhile, h]
      omega
    · simp [List.dropWhile, h]

theorem dropThroughFirst_length_le {pat : List Char} :
    ∀ {l r : List Char}, dropThroughFirst pat l = some r → r.length ≤ l.length := by
  intro l
  induction l with
  | nil =>
    intro r h
    simp only [dropThroughFirst] at h
    split at h <;> simp_all
  | cons c cs ih =>
    intro r h
    simp only [dropThroughFirst] at h
    split at h
    · cases h
      simp [List.length_drop]
    · exact le_trans (ih h) (by simp)

theorem skipToClose_length_lt {closeT after r : List Char}
    (h : skipToClose closeT after = some r) : r.length < after.length := by
  unfold skipToClose at h
  split at h
  · cases h
  · rename_i d rest heq
    have h1 : r.length ≤ rest.length := dropThroughFirst_length_le h
    have h2 : (d :: rest).length ≤ after.length := by
      rw [← heq]
      exact length_dropWhile_le _ after
    simp at h2
    omega

theorem take_append_length {α : Type} (l₁ l₂ : List α) :
    (l₁ ++ l₂).take l₁.length = l₁ := List.take_left l₁ l₂

theorem drop_append_length {α : Type} (l₁ l₂ : List α) :
    (l₁ ++ l₂).drop l₁.length = l₂ := List.drop_left l₁ l₂

theorem takeWhile_append_of_all {p : Char → Bool} :
    ∀ (l₁ : List Char) {d : Char} (l₂ : List Char), (∀ c ∈ l₁, p c = true) → p d = false →
      (l₁ ++ d :: l₂).takeWhile p = l₁ := by
  intro l₁
  induction l₁ with
  | nil => intro d l₂ _ hd; simp [List.takeWhile, hd]
  | cons c cs ih =>
    intro d l₂ hall hd
    have hc : p c = true := hall c (by simp)
    simp only [List.cons_append, List.takeWhile_cons, hc]
    simp only [if_true]
    rw [ih l₂ (fun x hx => hall x (by simp [hx])) hd]

theorem dropWhile_append_of_all {p : Char → Bool} :
    ∀ (l₁ : List Char) {d : Char} (l₂ : List Char), (∀ c ∈ l₁, p c = true) → p d = false →
      (l₁ ++ d :: l₂).dropWhile p = d :: l₂ := by
  intro l₁
  induction l₁ with
  | nil => intro d l₂ _ hd; simp [List.dropWhile, hd]
  | cons c cs ih =>
    intro d l₂ hall hd
    have hc : p c = true := hall c (by simp)
    simp only [List.cons_append, List.dropWhile_cons, hc, if_true]
    exact ih l₂ (fun x hx => hall x (by simp [hx])) hd

/-! ### Fuel independence of the fuelled scanners -/

theorem removeBlocksF_nil (o cl : List Char) (f : ℕ) : removeBlocksF o cl f [] = [] := by
  cases f <;> rfl

theorem removeBlocksF_fuel (o cl : List Char) :
    ∀ (f g : ℕ) (s : List Char), s.length ≤ f → s.length ≤ g →
      removeBlocksF o cl f s = removeBlocksF o cl g s := by
  intro f
  induction f with
  | zero =>
    intro g s hf _
    have : s = [] := List.eq_nil_of_length_eq_zero (Nat.le_zero.mp hf)
    subst this
    rw [removeBlocksF_nil, removeBlocksF_nil]
  | succ f ih =>
    intro g s hf hg
    cases s with
    | nil => rw [removeBlocksF_nil, removeBlocksF_nil]
    | cons c cs =>
      cases g with
      | zero => simp at hg
      | succ g =>
        have hcs : cs.length ≤ f := by simp at hf; omega
        have hcs' : cs.length ≤ g := by simp at hg; omega
        show removeBlocksF o cl (f + 1) (c :: cs) = removeBlocksF o cl (g + 1) (c :: cs)
        simp only [removeBlocksF]
        split
        · rename_i hmatch
          rcases hsk : skipToClose cl ((c :: cs).drop o.length) with _ | suffix
          · simp only [hsk]
            rw [ih g cs hcs hcs']
          · simp only [hsk]
            have hlt : suffix.length < ((c :: cs).drop o.length).length :=
              skipToClose_length_lt hsk
            have hsuf : suffix.length ≤ cs.length := by
              rw [List.length_drop] at hlt
              simp at hlt ⊢
              omega
            exact ih g suffix (le_trans hsuf hcs) (le_trans hsuf hcs')
        · rw [ih g cs hcs hcs']

theorem removeBlocks_nil (o cl : List Char) : removeBlocks o cl [] = [] := rfl

theorem removeBlocks_cons (o cl : List Char) (c : Char) (cs : List Char) :
    removeBlocks o cl (c :: cs) =
      if (c :: cs).take o.length = o then
        match skipToClose cl ((c :: cs).drop o.length) with
        | some suffix => removeBlocks o cl suffix
        | none => c :: removeBlocks o cl cs
      else c :: removeBlocks o cl cs := by
  show removeBlocksF o cl (cs.length + 1) (c :: cs) = _
  simp only [removeBlocksF]
  split
  · rcases hsk : skipToClose cl ((c :: cs).drop o.length) with _ | suffix
    · simp only [hsk]
      rfl
    · simp only [hsk]
      have hlt : suffix.length < ((c :: cs).drop o.length).length := skipToClose_length_lt hsk
      have hsuf : suffix.length ≤ cs.length := by
        rw [List.length_drop] at hlt
        simp at hlt
        omega
      exact removeBlocksF_fuel o cl cs.length suffix.length suffix hsuf le_rfl
  · rfl

theorem findAttrF_nil (key : List Char) (f : ℕ) : findAttrF key f [] = [] := by
  cases f <;> rfl

theorem findAttrF_fuel (key : List Char) :
    ∀ (f g : ℕ) (s : List Char), s.length ≤ f → s.length ≤ g →
      findAttrF key f s = findAttrF key g s := by
  intro f
  induction f with
  | zero =>
    intro g s hf _
    have : s = [] := List.eq_nil_of_length_eq_zero (Nat.le_zero.mp hf)
    subst this
    rw [findAttrF_nil, findAttrF_nil]
  | succ f ih =>
    intro g s hf hg
    cases s with
    | nil => rw [findAttrF_nil, findAttrF_nil]
    | cons c cs =>
      cases g with
      | zero => simp at hg
      | succ g =>
        have hcs : cs.length ≤ f := by simp at hf; omega
        have hcs' : cs.length ≤ g := by simp at hg; omega
        show findAttrF key (f + 1) (c :: cs) = findAttrF key (g + 1) (c :: cs)
        simp only [findAttrF]
        split
        · rcases hdrop : (c :: cs).drop key.length with _ | ⟨r, rs⟩
          · simp only [hdrop]
            exact ih g cs hcs hcs'
          · have hrs : rs.length ≤ cs.length := by
              have : (r :: rs).length = (c :: cs).length - key.length := by
                rw [← hdrop, List.length_drop]
              simp at this
              simp
              omega
            simp only [hdrop]
            split
            · split
              · exact ih g cs hcs hcs'
              · rw [ih g (rs.dropWhile isAttrValChar)
                    (le_trans (le_trans (length_dropWhile_le _ rs) hrs) hcs)
                    (le_trans (le_trans (length_dropWhile_le _ rs) hrs) hcs')]
            · split
              · exact ih g cs hcs hcs'
              · rename_i hq hne
                have hr : isAttrValChar r = true := by
                  by_cases h : isAttrValChar r
                  · exact h
                  · simp [List.takeWhile_cons, h] at hne
                have hdw : (r :: rs).dropWhile isAttrValChar = rs.dropWhile isAttrValChar := by
                  simp [List.dropWhile_cons, hr]
                rw [hdw,
                  ih g (rs.dropWhile isAttrValChar)
                    (le_trans (le_trans (length_dropWhile_le _ rs) hrs) hcs)
                    (le_trans (le_trans (length_dropWhile_le _ rs) hrs) hcs')]
        · exact ih g cs hcs hcs'

theorem findAttr_nil (key : List Char) : findAttr key [] = [] := rfl

theorem findAttr_skip (key : List Char) (c : Char) (cs : List Char)
    (h : ¬ ((c :: cs).take key.length).map pyLower = key) :
    findAttr key (c :: cs) = findAttr key cs := by
  show findAttrF key (cs.length + 1) (c :: cs) = _
  simp only [findAttrF, if_neg h]
  rfl

theorem findAttr_cons_head_ne (k0 : Char) (key' : List Char) (c : Char) (cs : List Char)
    (h : pyLower c ≠ k0) :
    findAttr (k0 :: key') (c :: cs) = findAttr (k0 :: key') cs := by
  apply findAttr_skip
  intro he
  rw [show (k0 :: key').length = key'.length + 1 from rfl, List.take_succ_cons,
    List.map_cons] at he
  exact h (List.cons.injEq _ _ _ _ ▸ he).1

theorem findAttr_append_clean (k0 : Char) (key' : List Char) :
    ∀ (sep s : List Char), (∀ c ∈ sep, pyLower c ≠ k0) →
      findAttr (k0 :: key') (sep ++ s) = findAttr (k0 :: key') s := by
  intro sep
  induction sep with
  | nil => intro s _; rfl
  | cons c cs ih =>
    intro s h
    rw [List.cons_append, findAttr_cons_head_ne k0 key' _ _ (h c (by simp))]
    exact ih s (fun x hx => h x (by simp [hx]))

theorem findAttr_all_skip (k0 : Char) (key' : List Char) (s : List Char)
    (h : ∀ c ∈ s, pyLower c ≠ k0) : findAttr (k0 :: key') s = [] := by
  have := findAttr_append_clean k0 key' s [] h
  rw [List.append_nil] at this
  rw [this, findAttr_nil]

theorem findAttr_match_quoted (k0 : Char) (key' v rest : List Char)
    (hkl : (k0 :: key').map pyLower = k0 :: key')
    (hv : ¬ v = []) (hva : ∀ x ∈ v, isAttrValChar x = true) :
    findAttr (k0 :: key') ((k0 :: key') ++ '"' :: (v ++ '"' :: rest)) =
      v :: findAttr (k0 :: key') ('"' :: rest) := by
  have hq : isAttrValChar '"' = false := by decide
  have htw : (v ++ '"' :: rest).takeWhile isAttrValChar = v :=
    takeWhile_append_of_all v rest hva hq
  have hdw : (v ++ '"' :: rest).dropWhile isAttrValChar = '"' :: rest :=
    dropWhile_append_of_all v rest hva hq
  have hs : (k0 :: key') ++ '"' :: (v ++ '"' :: rest)
      = k0 :: (key' ++ '"' :: (v ++ '"' :: rest)) := by simp
  have ht : ((k0 :: (key' ++ '"' :: (v ++ '"' :: rest))).take
      (k0 :: key').length).map pyLower = k0 :: key' := by
    rw [← List.cons_append, take_append_length]
    exact hkl
  have hd : (k0 :: (key' ++ '"' :: (v ++ '"' :: rest))).drop (k0 :: key').length
      = '"' :: (v ++ '"' :: rest) := by
    rw [← List.cons_append, drop_append_length]
  rw [hs]
  show findAttrF (k0 :: key') ((key' ++ '"' :: (v ++ '"' :: rest)).length + 1) _ = _
  simp only [findAttrF, ht, hd, htw, hdw]
  have hqc : isQuoteChar '"' = true := by decide
  simp only [hqc, if_true, if_neg hv, eq_self_iff_true]
  refine congrArg (v :: ·) ?_
  apply findAttrF_fuel
  · simp
    omega
  · rfl


theorem removeBlocks_cons_nomatch (o cl : List Char) (c : Char) (cs : List Char)
    (h : ¬ (c :: cs).take o.length = o) :
    removeBlocks o cl (c :: cs) = c :: removeBlocks o cl cs := by
  rw [removeBlocks_cons, if_neg h]

theorem removeBlocks_head_ne (t cl : List Char) (c : Char) (cs : List Char) (h : c ≠ '<') :
    removeBlocks ('<' :: t) cl (c :: cs) = c :: removeBlocks ('<' :: t) cl cs := by
  apply removeBlocks_cons_nomatch
  intro he
  rw [show ('<' :: t).length = t.length + 1 from rfl, List.take_succ_cons] at he
  exact h (List.cons.injEq _ _ _ _ ▸ he).1

theorem removeBlocks_append_clean (t cl : List Char) :
    ∀ (a s : List Char), (∀ c ∈ a, c ≠ '<') →
      removeBlocks ('<' :: t) cl (a ++ s) = a ++ removeBlocks ('<' :: t) cl s := by
  intro a
  induction a with
  | nil => intro s _; rfl
  | cons c cs ih =>
    intro s h
    rw [List.cons_append, removeBlocks_head_ne t cl c _ (h c (by simp)),
      ih s (fun x hx => h x (by simp [hx])), List.cons_append]

theorem removeBlocks_id (t cl s : List Char) (h : ∀ c ∈ s, c ≠ '<') :
    removeBlocks ('<' :: t) cl s = s := by
  have h2 := removeBlocks_append_clean t cl s [] h
  rw [List.append_nil] at h2
  rw [h2, removeBlocks_nil, List.append_nil]

theorem removeBlocks_block (t cl attrs body b : List Char)
    (hattrs : ∀ c ∈ attrs, c ≠ '>')
    (hbody : dropThroughFirst cl (body ++ (cl ++ b)) = some b) :
    removeBlocks ('<' :: t) cl (('<' :: t) ++ (attrs ++ '>' :: (body ++ (cl ++ b)))) =
      removeBlocks ('<' :: t) cl b := by
  have hp : ∀ c ∈ attrs, (fun x => !(x = '>')) c = true := by
    intro c hc
    simp [hattrs c hc]
  have hg : (fun x => !(x = '>')) '>' = false := by decide
  have ht : (('<' :: (t ++ (attrs ++ '>' :: (body ++ (cl ++ b))))).take ('<' :: t).length)
      = '<' :: t := by
    rw [← List.cons_append, take_append_length]
  have hd : ('<' :: (t ++ (attrs ++ '>' :: (body ++ (cl ++ b))))).drop ('<' :: t).length
      = attrs ++ '>' :: (body ++ (cl ++ b)) := by
    rw [← List.cons_append, drop_append_length]
  have hsk : skipToClose cl (attrs ++ '>' :: (body ++ (cl ++ b))) = some b := by
    unfold skipToClose
    rw [dropWhile_append_of_all attrs (body ++ (cl ++ b)) hp hg]
    exact hbody
  rw [List.cons_append, removeBlocks_cons]
  simp only [ht, hd, hsk, eq_self_iff_true, if_true]

theorem mem_insertDir (x d : String) (dirs : List String) :
    x ∈ insertDir d dirs ↔ x = d ∨ x ∈ dirs := by
  unfold insertDir
  split
  · rename_i h
    constructor
    · intro hx
      exact Or.inr hx
    · rintro (rfl | hx)
      · exact h
      · exact hx
  · simp [List.mem_cons]

/-! ### Claim C1 -/

/-- Claim C1, counterexample: on the sample HTML of the specification the emitted
record has `sentence_count ≠ 2` — the trailing "x" after "again!" forms a
third (sub)sentence under the `[.!?]+` split. -/
theorem c1_sentence_count_counterexample :
    (processDocument "page1.html" sampleHtml).statistics.sentence_count ≠ 2 := by
  decide

/-- Claim C1 (amended: `sentence_count` is 3, not 2): for the raw HTML
of §8 (see `sampleHtml`),
the Processor emits a record with text `"Hello world. Hello again! x"`,
links `["http://x"]`, `word_count = 5` and `sentence_count = 3`. -/
theorem c1_pipeline_sample :
    (processDocument "page1.html" sampleHtml).text = "Hello world. Hello again! x".data ∧
    (processDocument "page1.html" sampleHtml).links = ["http://x".data] ∧
    (processDocument "page1.html" sampleHtml).statistics.word_count = 5 ∧
    (processDocument "page1.html" sampleHtml).statistics.sentence_count = 3 := by
  refine ⟨?_, ?_, ?_, ?_⟩ <;> decide

/-! ### Claim C2 -/

/-- Claim C2, counterexample: block removal is case-sensitive, not
case-insensitive — an uppercase `<SCRIPT>` block is not removed (its text
content survives into the extracted text), while the lowercase form is. -/
theorem c2_case_sensitivity_counterexample :
    (strip_html "<SCRIPT>hello</SCRIPT>".data).1 = "hello".data ∧
    (strip_html "<script>hello</script>".data).1 = [] := by
  refine ⟨?_, ?_⟩ <;> decide

/-- Claim C2 (amended: the removal is case-sensitive — only lowercase
`<script`/`<style` opening tags match, since the source passes no IGNORECASE
flag to these substitutions): every block `openT ++ attrs ++ '>' ++ body ++
closeT` is removed regardless of the attributes in the opening tag (any
characters other than `'>'`) and of newlines inside the body, and removal
continues in the rest of the input. -/
theorem c2_block_removal (openT closeT a attrs body b : List Char)
    (hopen : ∃ t, openT = '<' :: t)
    (ha : ∀ c ∈ a, c ≠ '<') (hattrs : ∀ c ∈ attrs, c ≠ '>')
    (hbody : dropThroughFirst closeT (body ++ (closeT ++ b)) = some b) :
    removeBlocks openT closeT (a ++ (openT ++ (attrs ++ '>' :: (body ++ (closeT ++ b)))))
      = a ++ removeBlocks openT closeT b := by
  obtain ⟨t, rfl⟩ := hopen
  rw [removeBlocks_append_clean t closeT a _ ha,
    removeBlocks_block t closeT attrs body b hattrs hbody]

/-- Claim C2, witness: a lowercase script block with an attribute and an
embedded newline is removed from a concrete input. -/
theorem c2_block_removal_witness :
    removeBlocks "<script".data "</script>".data
        ("ab".data ++ ("<script".data ++
          (" type=a".data ++ '>' :: ("x\ny".data ++ ("</script>".data ++ "cd".data)))))
      = "ab".data ++ removeBlocks "<script".data "</script>".data "cd".data :=
  c2_block_removal "<script".data "</script>".data "ab".data " type=a".data "x\ny".data
    "cd".data ⟨"script".data, by decide⟩ (by decide) (by decide) (by decide)

/-! ### Claim C3 -/

/-- Claim C3, counterexample: when the marker file already exists,
`create_process_complete_status` does not leave it unchanged — the stored
payload after the call differs from the pre-existing one. -/
theorem c3_overwrite_counterexample :
    lookupFile "/shared/status/process_complete.json"
        (create_process_complete_status
          ⟨["/shared/status"], [], [],
            [("/shared/status/process_complete.json", ⟨"complete", 7, "t0"⟩)]⟩
          3 "t1").statusFiles
      ≠ some ⟨"complete", 7, "t0"⟩ := by
  decide

/-- Claim C3 (amended: the marker write is unconditional — `open(path, 'w')`
replaces any existing marker file rather than creating it only when absent):
after the call the marker exists and holds exactly the payload
`{status: "complete", processed_files: count, completed_at: timestamp}`,
whatever was stored before. -/
theorem c3_marker_unconditional_write (fs : FileSys) (n : ℕ) (now : String) :
    lookupFile "/shared/status/process_complete.json"
        (create_process_complete_status fs n now).statusFiles
      = some ⟨"complete", n, now⟩ ∧
    "/shared/status" ∈ (create_process_complete_status fs n now).dirs := by
  constructor
  · simp [create_process_complete_status, overwriteFile, lookupFile]
  · have : (create_process_complete_status fs n now).dirs
        = insertDir "/shared/status" fs.dirs := rfl
    rw [this]
    exact (mem_insertDir _ _ _).mpr (Or.inl rfl)

/-! ### Claim C10 -/

/-- Claim C10 (confirmed): when the raw directory is absent, or contains no
`.html` file, `process_html_files` still creates the processed-output
directory, returns 0 and writes no processed file. -/
theorem c10_creates_processed_dir (fs : FileSys)
    (h : "/shared/raw" ∉ fs.dirs ∨ fs.rawFiles.filter (fun f => endsWithHtml f.1) = []) :
    (process_html_files fs).2 = 0 ∧
    "/shared/processed" ∈ (process_html_files fs).1.dirs ∧
    (process_html_files fs).1.processedFiles = fs.processedFiles := by
  unfold process_html_files
  by_cases hraw : "/shared/raw" ∈ insertDir "/shared/processed" fs.dirs
  · rcases h with h | h
    · exfalso
      rcases (mem_insertDir _ _ _).mp hraw with he | hm
      · exact absurd he (by decide)
      · exact h hm
    · simp only [hraw, if_true, h, if_pos]
      simp [mem_insertDir]
  · simp only [hraw, if_false]
    simp [mem_insertDir]

/-- Claim C10, witness: on the empty filesystem the no-op path still creates
the processed directory. -/
theorem c10_witness :
    (process_html_files ⟨[], [], [], []⟩).2 = 0 ∧
    "/shared/processed" ∈ (process_html_files ⟨[], [], [], []⟩).1.dirs := by
  have h := c10_creates_processed_dir ⟨[], [], [], []⟩ (Or.inl (by simp))
  exact ⟨h.1, h.2.1⟩

/-! ### Claim C5 -/

theorem jaccard_def (w1 w2 : List String) :
    jaccard_similarity w1 w2 =
      if w1.toFinset ∪ w2.toFinset = ∅ then 0
      else ((w1.toFinset ∩ w2.toFinset).card : ℚ) / ((w1.toFinset ∪ w2.toFinset).card : ℚ) :=
  rfl

/-- Claim C5 (confirmed): `jaccard_similarity` is symmetric; it is 1 on
identical nonempty token sets; it is 0 on disjoint token sets (which covers
the empty-union case); and it always lies in `[0, 1]`. -/
theorem c5_jaccard_properties (w1 w2 : List String) :
    jaccard_similarity w1 w2 = jaccard_similarity w2 w1 ∧
    (w1.toFinset = w2.toFinset → w1 ≠ [] → jaccard_similarity w1 w2 = 1) ∧
    (w1.toFinset ∩ w2.toFinset = ∅ → jaccard_similarity w1 w2 = 0) ∧
    0 ≤ jaccard_similarity w1 w2 ∧ jaccard_similarity w1 w2 ≤ 1 := by
  refine ⟨?_, ?_, ?_, ?_, ?_⟩
  · rw [jaccard_def, jaccard_def, Finset.union_comm w2.toFinset w1.toFinset,
      Finset.inter_comm w2.toFinset w1.toFinset]
  · intro h hne
    rw [jaccard_def, ← h, Finset.union_self, Finset.inter_self]
    have hs : w1.toFinset ≠ ∅ := by
      simp only [ne_eq, List.toFinset_eq_empty_iff]
      exact hne
    rw [if_neg hs]
    have hc : (w1.toFinset.card : ℚ) ≠ 0 := by
      exact_mod_cast Finset.card_ne_zero.mpr (Finset.nonempty_iff_ne_empty.mpr hs)
    exact div_self hc
  · intro h
    rw [jaccard_def, h]
    split
    · rfl
    · simp
  · rw [jaccard_def]
    split
    · exact le_refl 0
    · exact div_nonneg (Nat.cast_nonneg _) (Nat.cast_nonneg _)
  · rw [jaccard_def]
    split
    · exact zero_le_one
    · rename_i h
      have hpos : (0 : ℚ) < ((w1.toFinset ∪ w2.toFinset).card : ℚ) := by
        exact_mod_cast Finset.card_pos.mpr (Finset.nonempty_iff_ne_empty.mpr h)
      rw [div_le_one hpos]
      exact_mod_cast Finset.card_le_card Finset.inter_subset_union

/-- Claim C5, witness: concrete instances of the identical-nonempty and
disjoint cases. -/
theorem c5_witness :
    jaccard_similarity ["a"] ["a"] = 1 ∧ jaccard_similarity ["a"] ["b"] = 0 := by
  constructor
  · exact (c5_jaccard_properties ["a"] ["a"]).2.1 rfl (by decide)
  · exact (c5_jaccard_properties ["a"] ["b"]).2.2.1 (by decide)

/-! ### Claim C9 -/

/-- Claim C9 (confirmed): readability metrics are exactly `(0, 0, 0)` on the
empty text; a text with exactly one (nonempty, stripped) sentence and exactly
one `\w`-token has `avg_sentence_length = 1`; and whenever the zero guard is
not taken, `complexity_score` is `avg_sentence_length * 0.1 +
avg_word_length * 0.5` — computed from the unrounded averages — rounded to 2
decimals, as are the reported averages themselves. -/
theorem c9_readability_properties (text : List Char) :
    calculate_readability_metrics [] = ⟨0, 0, 0⟩ ∧
    ((splitSentences text).length = 1 → (readabilityWords text).length = 1 →
      (calculate_readability_metrics text).avg_sentence_length = 1) ∧
    (¬ splitSentences text = [] → ¬ readabilityWords text = [] →
      (calculate_readability_metrics text).complexity_score =
        pyRound 2
          (((readabilityWords text).length : ℚ) / ((splitSentences text).length : ℚ) * 0.1 +
            (((readabilityWords text).map List.length).sum : ℚ) /
              ((readabilityWords text).length : ℚ) * 0.5)) := by
  refine ⟨rfl, ?_, ?_⟩
  · intro h1 h2
    have hne : ¬ (splitSentences text = [] ∨ readabilityWords text = []) := by
      rintro (h | h)
      · rw [h] at h1
        simp at h1
      · rw [h] at h2
        simp at h2
    simp only [calculate_readability_metrics, if_neg hne]
    rw [h1, h2]
    unfold pyRound roundHalfEven
    norm_num
  · intro h1 h2
    have hne : ¬ (splitSentences text = [] ∨ readabilityWords text = []) :=
      not_or.mpr ⟨h1, h2⟩
    simp only [calculate_readability_metrics, if_neg hne]

/-- Claim C9, witness: the text "hi" has one sentence and one token, and its
`avg_sentence_length` is 1. -/
theorem c9_witness : (calculate_readability_metrics "hi".data).avg_sentence_length = 1 :=
  (c9_readability_properties "hi".data).2.1 (by decide) (by decide)

/-! ### Claim C6 -/

theorem pyLower_isWordChar (c : Char) : isWordChar (pyLower c) = isWordChar c := by
  unfold pyLower
  split <;> rfl

theorem pyLower_isAlpha (c : Char) : (pyLower c).isAlpha = c.isAlpha := by
  unfold pyLower
  split <;> rfl

theorem wordRunsAux_map_lower :
    ∀ (s acc : List Char),
      wordRunsAux (acc.map pyLower) (s.map pyLower)
        = (wordRunsAux acc s).map (List.map pyLower) := by
  intro s
  induction s with
  | nil =>
    intro acc
    simp only [List.map_nil, wordRunsAux]
    by_cases h : acc = []
    · simp [h]
    · rw [if_neg (by simp [h]), if_neg h]
      simp [List.map_reverse]
  | cons c cs ih =>
    intro acc
    simp only [List.map_cons, wordRunsAux, pyLower_isWordChar]
    by_cases h : isWordChar c
    · rw [if_pos h, if_pos h]
      have h2 := ih (c :: acc)
      simpa using h2
    · rw [if_neg h, if_neg h]
      by_cases ha : acc = []
      · rw [if_pos (by simp [ha]), if_pos ha]
        simpa using ih []
      · rw [if_neg (by simp [ha]), if_neg ha]
        have h3 := ih []
        simp only [List.map_nil] at h3
        simp [List.map_reverse, h3]

theorem alphaWords_length_lower (s : List Char) :
    (alphaWords (s.map pyLower)).length = (alphaWords s).length := by
  unfold alphaWords wordRuns
  have h := wordRunsAux_map_lower s []
  simp only [List.map_nil] at h
  rw [h]
  have hall : ∀ r : List Char, ((r.map pyLower).all Char.isAlpha) = r.all Char.isAlpha := by
    intro r
    rw [List.all_map]
    simp only [Function.comp_def, pyLower_isAlpha]
  rw [List.filter_map, List.length_map]
  congr 1
  apply List.filter_congr
  intro r _
  simpa [Function.comp] using hall r

/-- Claim C6 (confirmed): in every record emitted by the Processor,
`statistics.word_count` equals the length of the persisted lowercase `words`
list: the `\b[a-zA-Z]+\b` matches of the cleaned text and of its case-folded
form are in length-preserving correspondence, since ASCII case folding
preserves both word-character and letter status. -/
theorem c6_word_count_matches_words (name : String) (html : List Char) :
    (processDocument name html).statistics.word_count
      = (processDocument name html).words.length := by
  show (analyze_text (strip_html html).1).word_count
      = (alphaWords ((strip_html html).1.map pyLower)).length
  set t := (strip_html html).1 with ht
  unfold analyze_text
  by_cases h : t = []
  · rw [if_pos h, h]
    rfl
  · rw [if_neg h]
    show (alphaWords t).length = (alphaWords (t.map pyLower)).length
    exact (alphaWords_length_lower t).symm

/-! ### Claim C7 -/

theorem process_files_loop_general :
    ∀ (files : List (String × Option (List Char))) (c : ℕ),
      (process_files_loop c files).2 = c + (successfulFiles files).length ∧
      (process_files_loop c files).1.map Prod.fst
        = (List.range (successfulFiles files).length).map (fun k => pageName (c + k + 1)) ∧
      (process_files_loop c files).1.map Prod.snd
        = (successfulFiles files).map (fun p => processDocument p.1 p.2) := by
  intro files
  induction files with
  | nil =>
    intro c
    refine ⟨by simp [process_files_loop, successfulFiles], ?_, ?_⟩ <;>
      simp [process_files_loop, successfulFiles]
  | cons f rest ih =>
    intro c
    rcases f with ⟨name, _ | html⟩
    · have hsf : successfulFiles ((name, none) :: rest) = successfulFiles rest := by
        simp [successfulFiles]
      simp only [process_files_loop, hsf]
      exact ih c
    · have hsf : successfulFiles ((name, some html) :: rest)
          = (name, html) :: successfulFiles rest := by
        simp [successfulFiles]
      simp only [process_files_loop, hsf]
      obtain ⟨ih1, ih2, ih3⟩ := ih (c + 1)
      refine ⟨?_, ?_, ?_⟩
      · simp only [List.length_cons]
        rw [ih1]
        omega
      · simp only [List.map_cons, List.length_cons, List.range_succ_eq_map, List.map_map,
          Nat.add_zero]
        rw [ih2]
        congr 1
        apply List.map_congr_left
        intro k _
        simp only [Function.comp_apply, Nat.succ_eq_add_one]
        congr 1
        omega
      · simp only [List.map_cons]
        rw [ih3]

/-- Claim C7 (confirmed): in the per-file loop, a failing file is skipped
without aborting and without consuming a sequence number; the k-th success is
written as `page_k.json` (counting from 1, in order of the successes); and the
returned count is the number of successes. -/
theorem c7_loop_spec (files : List (String × Option (List Char))) :
    (process_files_loop 0 files).2 = (successfulFiles files).length ∧
    (process_files_loop 0 files).1.map Prod.fst
      = (List.range (successfulFiles files).length).map (fun k => pageName (k + 1)) ∧
    (process_files_loop 0 files).1.map Prod.snd
      = (successfulFiles files).map (fun p => processDocument p.1 p.2) := by
  obtain ⟨h1, h2, h3⟩ := process_files_loop_general files 0
  refine ⟨by rw [h1]; omega, ?_, h3⟩
  rw [h2]
  apply List.map_congr_left
  intro k _
  congr 1
  omega

/-! ### Claim C4 -/

theorem flatMap_congr_mem {α β : Type} {l : List α} {f g : α → List β}
    (h : ∀ x ∈ l, f x = g x) : l.flatMap f = l.flatMap g := by
  induction l with
  | nil => rfl
  | cons a as ih =>
    rw [List.flatMap_cons, List.flatMap_cons, h a (by simp),
      ih (fun x hx => h x (by simp [hx]))]

theorem filterMap_congr_mem {α β : Type} {l : List α} {f g : α → Option β}
    (h : ∀ x ∈ l, f x = g x) : l.filterMap f = l.filterMap g := by
  induction l with
  | nil => rfl
  | cons a as ih =>
    rw [List.filterMap_cons, List.filterMap_cons, h a (by simp),
      ih (fun x hx => h x (by simp [hx]))]

theorem enumFrom_succ_map {α : Type} :
    ∀ (l : List α) (n : ℕ),
      List.enumFrom (n + 1) l = (List.enumFrom n l).map (fun p => (p.1 + 1, p.2)) := by
  intro l
  induction l with
  | nil => intro n; rfl
  | cons a as ih =>
    intro n
    simp only [List.enumFrom_cons, List.map_cons]
    rw [ih (n + 1)]

theorem filterMap_enumFrom_pos (g : String × List String → SimEntry) :
    ∀ (ds : List (String × List String)) (k : ℕ), 1 ≤ k →
      (List.enumFrom k ds).filterMap
        (fun q => if 0 < q.1 then some (g q.2) else none) = ds.map g := by
  intro ds
  induction ds with
  | nil => intro k _; rfl
  | cons a as ih =>
    intro k hk
    have h0 : 0 < k := hk
    simp only [List.enumFrom_cons, List.filterMap_cons, h0, if_true]
    rw [ih (k + 1) (by omega)]
    rfl

theorem document_similarity_nil : document_similarity [] = [] := rfl

theorem document_similarity_cons (d : String × List String)
    (ds : List (String × List String)) :
    document_similarity (d :: ds)
      = (ds.map fun w => simEntryOf d w) ++ document_similarity ds := by
  unfold document_similarity
  rw [List.enum_cons, List.flatMap_cons]
  have hshift : ds.enumFrom 1 = ds.enum.map (fun p => (p.1 + 1, p.2)) :=
    enumFrom_succ_map ds 0
  congr 1
  · rw [List.filterMap_cons]
    simp only [Nat.lt_irrefl, if_false]
    exact filterMap_enumFrom_pos (fun w => simEntryOf d w) ds 1 le_rfl
  · rw [hshift, List.flatMap_map]
    apply flatMap_congr_mem
    intro p _
    simp only [Function.comp_apply]
    rw [List.filterMap_cons]
    simp only [Nat.not_lt_zero, if_false]
    rw [List.filterMap_map]
    apply filterMap_congr_mem
    intro q _
    simp only [Function.comp_apply, Nat.add_lt_add_iff_right]

theorem document_similarity_length :
    ∀ docs : List (String × List String),
      (document_similarity docs).length = docs.length.choose 2 := by
  intro docs
  induction docs with
  | nil => rfl
  | cons d ds ih =>
    rw [document_similarity_cons]
    simp only [List.length_append, List.length_map, ih, List.length_cons]
    show ds.length + ds.length.choose 2 = ds.length.succ.choose (Nat.succ 1)
    rw [Nat.choose_succ_succ, Nat.choose_one_right]

theorem document_similarity_mem :
    ∀ docs : List (String × List String), (docs.map Prod.fst).Nodup →
      ∀ e ∈ document_similarity docs,
        e.doc1 ∈ docs.map Prod.fst ∧ e.doc2 ∈ docs.map Prod.fst ∧
        (docs.map Prod.fst).indexOf e.doc1 < (docs.map Prod.fst).indexOf e.doc2 := by
  intro docs
  induction docs with
  | nil =>
    intro _ e he
    rw [document_similarity_nil] at he
    exact absurd he (List.not_mem_nil e)
  | cons d ds ih =>
    intro hnd e he
    obtain ⟨hd1, hnd'⟩ := List.nodup_cons.mp hnd
    rw [document_similarity_cons, List.mem_append] at he
    rcases he with he | he
    · obtain ⟨w, hw, rfl⟩ := List.mem_map.mp he
      have hw1 : w.1 ∈ ds.map Prod.fst := List.mem_map_of_mem Prod.fst hw
      have hne : d.1 ≠ w.1 := fun h => hd1 (h ▸ hw1)
      refine ⟨by simp [simEntryOf], ?_, ?_⟩
      · simp only [simEntryOf, List.map_cons, List.mem_cons]
        exact Or.inr hw1
      · simp only [simEntryOf, List.map_cons]
        rw [List.indexOf_cons_self, List.indexOf_cons_ne _ hne]
        omega
    · obtain ⟨m1, m2, hlt⟩ := ih hnd' e he
      have ne1 : d.1 ≠ e.doc1 := fun h => hd1 (h ▸ m1)
      have ne2 : d.1 ≠ e.doc2 := fun h => hd1 (h ▸ m2)
      refine ⟨by simp [m1], by simp [m2], ?_⟩
      simp only [List.map_cons]
      rw [List.indexOf_cons_ne _ ne1, List.indexOf_cons_ne _ ne2]
      omega

theorem document_similarity_pairs_nodup :
    ∀ docs : List (String × List String), (docs.map Prod.fst).Nodup →
      ((document_similarity docs).map (fun e => (e.doc1, e.doc2))).Nodup := by
  intro docs
  induction docs with
  | nil =>
    intro _
    rw [document_similarity_nil]
    exact List.nodup_nil
  | cons d ds ih =>
    intro hnd
    obtain ⟨hd1, hnd'⟩ := List.nodup_cons.mp hnd
    rw [document_similarity_cons, List.map_append, List.nodup_append]
    refine ⟨?_, ih hnd', ?_⟩
    · rw [List.map_map]
      have hcomp : ((fun e : SimEntry => (e.doc1, e.doc2)) ∘ fun w => simEntryOf d w)
          = fun w : String × List String => (d.1, w.1) := rfl
      rw [hcomp]
      have h2 : ds.map (fun w : String × List String => (d.1, w.1))
          = (ds.map Prod.fst).map (fun n => (d.1, n)) := by
        rw [List.map_map]
        rfl
      rw [h2]
      exact hnd'.map (fun a b hab => by simpa using congrArg Prod.snd hab)
    · intro a ha1 ha2
      rw [List.map_map] at ha1
      obtain ⟨w, hw, rfl⟩ := List.mem_map.mp ha1
      obtain ⟨e, he, hee⟩ := List.mem_map.mp ha2
      have hm := (document_similarity_mem ds hnd' e he).1
      have : ((fun e : SimEntry => (e.doc1, e.doc2)) ∘ fun w => simEntryOf d w) w
          = (d.1, w.1) := rfl
      rw [this] at hee
      have : e.doc1 = d.1 := congrArg Prod.fst hee
      exact hd1 (this ▸ hm)

theorem document_similarity_covers :
    ∀ docs : List (String × List String), (docs.map Prod.fst).Nodup →
      ∀ x y : String, x ∈ docs.map Prod.fst → y ∈ docs.map Prod.fst →
        (docs.map Prod.fst).indexOf x < (docs.map Prod.fst).indexOf y →
        ∃ e ∈ document_similarity docs, e.doc1 = x ∧ e.doc2 = y := by
  intro docs
  induction docs with
  | nil =>
    intro _ x y hx _ _
    exact absurd hx (List.not_mem_nil x)
  | cons d ds ih =>
    intro hnd x y hx hy hlt
    obtain ⟨hd1, hnd'⟩ := List.nodup_cons.mp hnd
    have hy_ne : y ≠ d.1 := by
      intro h
      subst h
      rw [List.map_cons, List.indexOf_cons_self] at hlt
      omega
    have hyds : y ∈ ds.map Prod.fst := by
      rcases List.mem_cons.mp hy with h | h
      · exact absurd h hy_ne
      · exact h
    by_cases hxd : x = d.1
    · subst hxd
      obtain ⟨w, hw, hw1⟩ := List.mem_map.mp hyds
      refine ⟨simEntryOf d w, ?_, rfl, hw1⟩
      rw [document_similarity_cons, List.mem_append]
      exact Or.inl (List.mem_map.mpr ⟨w, hw, rfl⟩)
    · have hxds : x ∈ ds.map Prod.fst := by
        rcases List.mem_cons.mp hx with h | h
        · exact absurd h hxd
        · exact h
      have hlt' : (ds.map Prod.fst).indexOf x < (ds.map Prod.fst).indexOf y := by
        rw [List.map_cons, List.indexOf_cons_ne _ (Ne.symm hxd),
          List.indexOf_cons_ne _ (Ne.symm hy_ne)] at hlt
        omega
      obtain ⟨e, he, h1, h2⟩ := ih hnd' x y hxds hyds hlt'
      refine ⟨e, ?_, h1, h2⟩
      rw [document_similarity_cons, List.mem_append]
      exact Or.inr he

/-- Claim C4 (confirmed): for a corpus of `n` documents with distinct names
(dict keys are unique), the similarity list has exactly `n*(n-1)/2` entries;
in every entry `doc1` occurs strictly earlier than `doc2` in the corpus
enumeration order; the name pairs are pairwise distinct; no entry is the
reversal of another; and every ordered-by-enumeration pair is covered. -/
theorem c4_similarity_pairs (docs : List (String × List String))
    (hnd : (docs.map Prod.fst).Nodup) :
    (document_similarity docs).length = docs.length * (docs.length - 1) / 2 ∧
    (∀ e ∈ document_similarity docs,
      e.doc1 ∈ docs.map Prod.fst ∧ e.doc2 ∈ docs.map Prod.fst ∧
      (docs.map Prod.fst).indexOf e.doc1 < (docs.map Prod.fst).indexOf e.doc2) ∧
    ((document_similarity docs).map (fun e => (e.doc1, e.doc2))).Nodup ∧
    (∀ e ∈ document_similarity docs, ∀ e2 ∈ document_similarity docs,
      ¬ (e2.doc1 = e.doc2 ∧ e2.doc2 = e.doc1)) ∧
    (∀ x y : String, x ∈ docs.map Prod.fst → y ∈ docs.map Prod.fst →
      (docs.map Prod.fst).indexOf x < (docs.map Prod.fst).indexOf y →
      ∃ e ∈ document_similarity docs, e.doc1 = x ∧ e.doc2 = y) := by
  refine ⟨?_, document_similarity_mem docs hnd, document_similarity_pairs_nodup docs hnd,
    ?_, document_similarity_covers docs hnd⟩
  · rw [document_similarity_length docs, Nat.choose_two_right]
  · intro e he e2 he2 ⟨h1, h2⟩
    obtain ⟨_, _, hlt⟩ := document_similarity_mem docs hnd e he
    obtain ⟨_, _, hlt2⟩ := document_similarity_mem docs hnd e2 he2
    rw [h1, h2] at hlt2
    omega

/-- Claim C4, witness: a three-document corpus has exactly `3*2/2 = 3`
similarity entries with pairwise-distinct name pairs. -/
theorem c4_witness :
    (document_similarity [("a.json", ["x"]), ("b.json", ["y"]), ("c.json", ["x"])]).length
        = 3 ∧
    ((document_similarity [("a.json", ["x"]), ("b.json", ["y"]), ("c.json", ["x"])]).map
        (fun e => (e.doc1, e.doc2))).Nodup := by
  have h := c4_similarity_pairs
    [("a.json", ["x"]), ("b.json", ["y"]), ("c.json", ["x"])] (by decide)
  refine ⟨?_, h.2.2.1⟩
  rw [h.1]
  rfl

/-! ### Claim C8 -/

/-- Claim C8, counterexample: the same `href=` scanner applied to the original
markup finds `http://u`, but `strip_html` returns an empty link list for this
input — the value sits inside a `<script>` block, which is removed before
extraction, so the returned lists do not contain every `href=` value of the
*original* markup. -/
theorem c8_original_markup_counterexample :
    findAttr "href=".data "<script><a href=\"http://u\"></script>".data
        = ["http://u".data] ∧
    (strip_html "<script><a href=\"http://u\"></script>".data).2.1 = [] := by
  refine ⟨?_, ?_⟩ <;> decide

theorem findAttr_buildSegs (k0 : Char) (key' : List Char)
    (hkl : (k0 :: key').map pyLower = k0 :: key') (hq : k0 ≠ '"') :
    ∀ (segs : List (List Char × List Char)) (tailPart : List Char),
      (∀ p ∈ segs, (∀ c ∈ p.1, pyLower c ≠ k0) ∧ ¬ p.2 = [] ∧
        (∀ c ∈ p.2, isAttrValChar c = true)) →
      (∀ c ∈ tailPart, pyLower c ≠ k0) →
      findAttr (k0 :: key') (buildSegs (k0 :: key') segs tailPart)
        = segs.map Prod.snd := by
  intro segs
  induction segs with
  | nil =>
    intro tailPart _ htail
    exact findAttr_all_skip k0 key' tailPart htail
  | cons seg rest ih =>
    intro tailPart hsegs htail
    obtain ⟨hsep, hv, hva⟩ := hsegs seg (by simp)
    rcases seg with ⟨sep, v⟩
    show findAttr (k0 :: key')
        (sep ++ (k0 :: key') ++ '"' :: (v ++ '"' :: buildSegs (k0 :: key') rest tailPart))
      = v :: rest.map Prod.snd
    rw [List.append_assoc, findAttr_append_clean k0 key' sep _ hsep,
      findAttr_match_quoted k0 key' v _ hkl hv hva,
      findAttr_cons_head_ne k0 key' '"' _
        (by rw [show pyLower '"' = '"' from rfl]; exact fun h => hq h.symm),
      ih tailPart (fun p hp => hsegs p (by simp [hp])) htail]

theorem buildSegs_no_lt (key : List Char) (hkey : ∀ c ∈ key, c ≠ '<') :
    ∀ (segs : List (List Char × List Char)) (tailPart : List Char),
      (∀ p ∈ segs, (∀ c ∈ p.1, c ≠ '<') ∧ (∀ c ∈ p.2, c ≠ '<')) →
      (∀ c ∈ tailPart, c ≠ '<') →
      ∀ c ∈ buildSegs key segs tailPart, c ≠ '<' := by
  intro segs
  induction segs with
  | nil =>
    intro tailPart _ htail
    exact htail
  | cons seg rest ih =>
    intro tailPart hsegs htail c hc
    obtain ⟨h1, h2⟩ := hsegs seg (by simp)
    rcases seg with ⟨sep, v⟩
    have hrest := ih tailPart (fun p hp => hsegs p (by simp [hp])) htail
    show c ≠ '<'
    have hc2 : c ∈ sep ++ key ++ '"' :: (v ++ '"' :: buildSegs key rest tailPart) := hc
    simp only [List.mem_append, List.mem_cons] at hc2
    rcases hc2 with (hc2 | hc2) | hc2 | (hc2 | hc2 | hc2)
    · exact h1 c hc2
    · exact hkey c hc2
    · rw [hc2]
      decide
    · exact h2 c hc2
    · rw [hc2]
      decide
    · exact hrest c hc2

/-- Claim C8 (amended: the extraction runs on the markup *after* script/style
blocks are removed, not on the original markup; on that content every
occurrence of an `href=`/`src=` attribute whose value is a nonempty run of
capture-class characters is collected, in order of appearance with duplicates
preserved).  Stated for markup built from arbitrary separator texts that
contain no tag opener and cannot start a key match. -/
theorem c8_attr_extraction
    (segsL segsI : List (List Char × List Char)) (tailL tailI : List Char)
    (hL : ∀ p ∈ segsL, cleanSep 'h' p.1 ∧ cleanVal p.2) (htL : cleanSep 'h' tailL)
    (hI : ∀ p ∈ segsI, cleanSep 's' p.1 ∧ cleanVal p.2) (htI : cleanSep 's' tailI) :
    (strip_html (buildSegs "href=".data segsL tailL)).2.1 = segsL.map Prod.snd ∧
    (strip_html (buildSegs "src=".data segsI tailI)).2.2 = segsI.map Prod.snd := by
  have hidL : ∀ c ∈ buildSegs "href=".data segsL tailL, c ≠ '<' := by
    apply buildSegs_no_lt "href=".data (by decide) segsL tailL
    · exact fun p hp => ⟨fun c hc => ((hL p hp).1 c hc).2,
        fun c hc => (((hL p hp).2.2 c hc)).2⟩
    · exact fun c hc => (htL c hc).2
  have hidI : ∀ c ∈ buildSegs "src=".data segsI tailI, c ≠ '<' := by
    apply buildSegs_no_lt "src=".data (by decide) segsI tailI
    · exact fun p hp => ⟨fun c hc => ((hI p hp).1 c hc).2,
        fun c hc => (((hI p hp).2.2 c hc)).2⟩
    · exact fun c hc => (htI c hc).2
  constructor
  · show findAttr "href=".data
        (removeBlocks "<style".data "</style>".data
          (removeBlocks "<script".data "</script>".data
            (buildSegs "href=".data segsL tailL)))
      = segsL.map Prod.snd
    rw [show "<script".data = '<' :: "script".data from rfl,
      show "<style".data = '<' :: "style".data from rfl,
      removeBlocks_id "script".data "</script>".data _ hidL,
      removeBlocks_id "style".data "</style>".data _ hidL,
      show "href=".data = 'h' :: "ref=".data from rfl]
    apply findAttr_buildSegs 'h' "ref=".data (by decide) (by decide) segsL tailL
    · exact fun p hp => ⟨fun c hc => ((hL p hp).1 c hc).1, (hL p hp).2.1,
        fun c hc => ((hL p hp).2.2 c hc).1⟩
    · exact fun c hc => (htL c hc).1
  · show findAttr "src=".data
        (removeBlocks "<style".data "</style>".data
          (removeBlocks "<script".data "</script>".data
            (buildSegs "src=".data segsI tailI)))
      = segsI.map Prod.snd
    rw [show "<script".data = '<' :: "script".data from rfl,
      show "<style".data = '<' :: "style".data from rfl,
      removeBlocks_id "script".data "</script>".data _ hidI,
      removeBlocks_id "style".data "</style>".data _ hidI,
      show "src=".data = 's' :: "rc=".data from rfl]
    apply findAttr_buildSegs 's' "rc=".data (by decide) (by decide) segsI tailI
    · exact fun p hp => ⟨fun c hc => ((hI p hp).1 c hc).1, (hI p hp).2.1,
        fun c hc => ((hI p hp).2.2 c hc).1⟩
    · exact fun c hc => (htI c hc).1

/-- Claim C8, witness: two `href=` attributes with the same value are both
extracted, in order, with the duplicate preserved; the `src=` side extracts
its value as an image. -/
theorem c8_witness :
    (strip_html (buildSegs "href=".data
        [("a ".data, "http://u".data), (" b ".data, "http://u".data)] "z".data)).2.1
      = ["http://u".data, "http://u".data] ∧
    (strip_html (buildSegs "src=".data [("p ".data, "img1".data)] [])).2.2
      = ["img1".data] := by
  have h := c8_attr_extraction
    [("a ".data, "http://u".data), (" b ".data, "http://u".data)]
    [("p ".data, "img1".data)] "z".data []
    (by unfold cleanSep cleanVal; decide) (by unfold cleanSep; decide)
    (by unfold cleanSep cleanVal; decide) (by unfold cleanSep; decide)
  exact ⟨h.1, h.2⟩
